import Mathlib

/-!
Verification of the draft-analysis data-collection scripts.

This file gives a shallow embedding, in Lean 4, of the logic of the
repository's Python scripts and proves properties of that logic:

* the bounded retry loop around remote table fetches
  (`scripts/fbrefscraper.py` lines 105-118, `scripts/multi_league_scraper.py`
  lines 175-187);
* the name-normalization and fuzzy identity matcher of
  `scripts/targeted_player_scraper.py` (`normalize_name`,
  `find_players_with_debug`);
* the dataset merge/backup and input-file validation of
  `import_collected_stats.py` (`import_player_stats`, `validate_stats_file`).

Browser automation, HTML parsing and the file system are external
collaborators: fetches are modelled as fallible functions, file effects as an
explicit list of operations, and parsed JSON as an inductive value type.
-/

set_option autoImplicit false

namespace DraftAnalysis

/-! ## Fetch-with-retry

Embedding of the retry loop

```python
for attempt in range(MAX_RETRIES):
    try:
        df = get_table_as_df(driver, url, table_id)
        dataframes[stat_type] = df
        break
    except Exception as e:
        print(...)
        if attempt + 1 == MAX_RETRIES:
            dataframes[stat_type] = pd.DataFrame()
        else:
            time.sleep(RETRY_DELAY)
```

The acquisition call `get_table_as_df` (which either returns a table or
raises) is modelled as a function `f : Nat → Except E A` giving the outcome
of the call made at 0-based attempt number `i`.  The `try`/`except` catches
every exception, so the loop itself never lets one escape: accordingly the
model's return type has no error component.  `result = none` records that the
loop body never assigned `dataframes[stat_type]` (possible only when
`maxAttempts = 0`, i.e. `range` is empty); `calls` counts invocations of the
acquisition function and `sleeps` counts executions of
`time.sleep(RETRY_DELAY)`.
-/

/-- Outcome of one run of the retry loop: the value stored for the source (if
any), the number of acquisition calls made, and the number of retry-delay
sleeps performed. -/
structure RetryResult (A : Type) where
  result : Option A
  calls : Nat
  sleeps : Nat
  deriving DecidableEq, Repr

/-- The retry loop, running attempts `attempt, attempt+1, ...` while `fuel`
iterations remain.  Mirrors the Python loop body: a successful call stores the
value and breaks; a failed call at the final attempt (`attempt + 1 =
maxAttempts`) stores the empty result; a failed call earlier sleeps and
continues. -/
def retryFrom {E A : Type} (f : Nat → Except E A) (emptyRes : A)
    (maxAttempts : Nat) : Nat → Nat → RetryResult A
  | 0, _ => ⟨none, 0, 0⟩
  | fuel + 1, attempt =>
    match f attempt with
    | Except.ok a => ⟨some a, 1, 0⟩
    | Except.error _ =>
      if attempt + 1 = maxAttempts then ⟨some emptyRes, 1, 0⟩
      else
        let rest := retryFrom f emptyRes maxAttempts fuel (attempt + 1)
        ⟨rest.result, rest.calls + 1, rest.sleeps + 1⟩

/-- `for attempt in range(maxAttempts)` with the body above: start at attempt
0 with `maxAttempts` iterations available. -/
def fetchWithRetry {E A : Type} (f : Nat → Except E A) (emptyRes : A)
    (maxAttempts : Nat) : RetryResult A :=
  retryFrom f emptyRes maxAttempts maxAttempts 0

/-- The surrounding per-source loop: each source's retry budget is
independent, and a source that degraded to the empty result does not stop the
scan of the remaining sources. -/
def fetchAllSources {E A : Type} (sources : List (Nat → Except E A))
    (emptyRes : A) (maxAttempts : Nat) : List (Option A) :=
  sources.map (fun f => (fetchWithRetry f emptyRes maxAttempts).result)

theorem retryFrom_all_fail {E A : Type} (f : Nat → Except E A) (emptyRes : A)
    (maxAttempts : Nat) :
    ∀ fuel attempt, attempt + fuel = maxAttempts → 1 ≤ fuel →
      (∀ i, attempt ≤ i → i < maxAttempts → ∃ e, f i = Except.error e) →
      retryFrom f emptyRes maxAttempts fuel attempt =
        ⟨some emptyRes, fuel, fuel - 1⟩ := by
  intro fuel
  induction fuel with
  | zero => intro attempt _ h1; omega
  | succ n ih =>
    intro attempt hsum _ hfail
    obtain ⟨e, he⟩ := hfail attempt (Nat.le_refl _) (by omega)
    rw [retryFrom, he]
    by_cases hlast : attempt + 1 = maxAttempts
    · have hn : n = 0 := by omega
      simp [hlast, hn]
    · have hn : 1 ≤ n := by omega
      have hrec := ih (attempt + 1) (by omega) hn
        (fun i hi hi2 => hfail i (by omega) hi2)
      simp only [if_neg hlast, hrec, RetryResult.mk.injEq]
      refine ⟨trivial, trivial, by omega⟩

theorem retryFrom_eventual_success {E A : Type} (f : Nat → Except E A)
    (emptyRes : A) (maxAttempts : Nat) (a : A) :
    ∀ fuel attempt, attempt + fuel = maxAttempts → 1 ≤ fuel →
      (∀ i, attempt ≤ i → i + 1 < maxAttempts → ∃ e, f i = Except.error e) →
      f (maxAttempts - 1) = Except.ok a →
      retryFrom f emptyRes maxAttempts fuel attempt =
        ⟨some a, fuel, fuel - 1⟩ := by
  intro fuel
  induction fuel with
  | zero => intro attempt _ h1; omega
  | succ n ih =>
    intro attempt hsum _ hfail hok
    by_cases hlast : attempt + 1 = maxAttempts
    · have hattempt : attempt = maxAttempts - 1 := by omega
      have hn : n = 0 := by omega
      rw [retryFrom, hattempt, hok]
      simp [hn]
    · obtain ⟨e, he⟩ := hfail attempt (Nat.le_refl _) (by omega)
      rw [retryFrom, he]
      have hn : 1 ≤ n := by omega
      have hrec := ih (attempt + 1) (by omega) hn
        (fun i hi hi2 => hfail i (by omega) hi2) hok
      simp only [if_neg hlast, hrec, RetryResult.mk.injEq]
      refine ⟨trivial, trivial, by omega⟩

/-- C2.  An acquisition function that fails on every invocation is invoked
exactly `maxAttempts` times, no exception reaches the caller (the loop's
result type has no error component), the designated empty result is stored
for that source, and the per-source scan continues with the remaining
sources. -/
theorem fetch_with_retry_all_fail {E A : Type} (f : Nat → Except E A)
    (emptyRes : A) (maxAttempts : Nat) (hmax : 1 ≤ maxAttempts)
    (hfail : ∀ i, i < maxAttempts → ∃ e, f i = Except.error e) :
    fetchWithRetry f emptyRes maxAttempts =
      ⟨some emptyRes, maxAttempts, maxAttempts - 1⟩ ∧
    ∀ pre post : List (Nat → Except E A),
      fetchAllSources (pre ++ f :: post) emptyRes maxAttempts =
        fetchAllSources pre emptyRes maxAttempts ++
          some emptyRes :: fetchAllSources post emptyRes maxAttempts := by
  have hmain : fetchWithRetry f emptyRes maxAttempts =
      ⟨some emptyRes, maxAttempts, maxAttempts - 1⟩ :=
    retryFrom_all_fail f emptyRes maxAttempts maxAttempts 0 (by omega) hmax
      (fun i _ hi2 => hfail i hi2)
  refine ⟨hmain, fun pre post => ?_⟩
  simp [fetchAllSources, hmain]

/-- Closed witness for `fetch_with_retry_all_fail`: with `maxAttempts = 3`
and a function that always fails, the loop makes 3 calls, sleeps twice, and
stores the empty result `0`. -/
theorem fetch_with_retry_all_fail_witness :
    fetchWithRetry (fun _ => (Except.error "boom" : Except String Nat)) 0 3 =
      ⟨some 0, 3, 2⟩ :=
  (fetch_with_retry_all_fail (fun _ => (Except.error "boom" : Except String Nat))
    0 3 (by omega) (fun i _ => ⟨"boom", rfl⟩)).1

/-- C3.  An acquisition function that fails on exactly the first
`maxAttempts - 1` invocations and succeeds on invocation number `maxAttempts`
makes the loop return the success value, having performed exactly
`maxAttempts - 1` retry-delay sleeps (and exactly `maxAttempts` calls). -/
theorem fetch_with_retry_eventual_success {E A : Type} (f : Nat → Except E A)
    (emptyRes : A) (maxAttempts : Nat) (a : A) (hmax : 1 ≤ maxAttempts)
    (hfail : ∀ i, i + 1 < maxAttempts → ∃ e, f i = Except.error e)
    (hok : f (maxAttempts - 1) = Except.ok a) :
    fetchWithRetry f emptyRes maxAttempts =
      ⟨some a, maxAttempts, maxAttempts - 1⟩ :=
  retryFrom_eventual_success f emptyRes maxAttempts a maxAttempts 0 (by omega)
    hmax (fun i _ hi2 => hfail i hi2) hok

/-- Closed witness for `fetch_with_retry_eventual_success`: with
`maxAttempts = 3`, failures at attempts 0 and 1 and success at attempt 2, the
loop returns the success value `7` after exactly 2 sleeps. -/
theorem fetch_with_retry_eventual_success_witness :
    fetchWithRetry
      (fun i => if i + 1 < 3 then (Except.error "boom" : Except String Nat)
                else Except.ok 7) 0 3 =
      ⟨some 7, 3, 2⟩ :=
  fetch_with_retry_eventual_success
    (fun i => if i + 1 < 3 then (Except.error "boom" : Except String Nat)
              else Except.ok 7)
    0 3 7 (by omega)
    (fun i hi => ⟨"boom", by simp [hi]⟩)
    (by norm_num)

/-! ## Name normalization (`scripts/targeted_player_scraper.py`, `normalize_name`)

```python
def normalize_name(name):
    if not name:
        return ""
    normalized = str(name).lower().strip()
    normalized = re.sub(r'[àáâãäå]', 'a', normalized)
    normalized = re.sub(r'[èéêë]', 'e', normalized)
    normalized = re.sub(r'[ìíîï]', 'i', normalized)
    normalized = re.sub(r'[òóôõöø]', 'o', normalized)
    normalized = re.sub(r'[ùúûü]', 'u', normalized)
    normalized = re.sub(r'[ñ]', 'n', normalized)
    normalized = re.sub(r'[ç]', 'c', normalized)
    normalized = re.sub(r'[^\w\s]', ' ', normalized)
    normalized = re.sub(r'\s+', ' ', normalized)
    return normalized.strip()
```

Strings are modelled as `List Char`.  `str.lower()` is modelled on ASCII
letters plus the uppercase forms of the accent set the function folds;
`\w` is modelled as ASCII `[A-Za-z0-9_]` and `\s` as the ASCII whitespace
class `[ \t\n\r\v\f]` (the regexes are per-character class replacements, so
each becomes a character map; the seven accent substitutions have pairwise
disjoint domains whose images meet no domain, so their composition is a
single character map).  `\s+ -> ' '` is modelled by a single pass that
emits one `' '` per maximal whitespace run.
-/

/-- Lowering table for `str.lower()`: ASCII `A`-`Z` plus the uppercase forms
of the accented letters handled by the accent-folding substitutions. -/
def lowerPairs : List (Char × Char) :=
  [('A', 'a'), ('B', 'b'), ('C', 'c'), ('D', 'd'), ('E', 'e'), ('F', 'f'),
   ('G', 'g'), ('H', 'h'), ('I', 'i'), ('J', 'j'), ('K', 'k'), ('L', 'l'),
   ('M', 'm'), ('N', 'n'), ('O', 'o'), ('P', 'p'), ('Q', 'q'), ('R', 'r'),
   ('S', 's'), ('T', 't'), ('U', 'u'), ('V', 'v'), ('W', 'w'), ('X', 'x'),
   ('Y', 'y'), ('Z', 'z'),
   ('À', 'à'), ('Á', 'á'), ('Â', 'â'), ('Ã', 'ã'), ('Ä', 'ä'), ('Å', 'å'),
   ('È', 'è'), ('É', 'é'), ('Ê', 'ê'), ('Ë', 'ë'),
   ('Ì', 'ì'), ('Í', 'í'), ('Î', 'î'), ('Ï', 'ï'),
   ('Ò', 'ò'), ('Ó', 'ó'), ('Ô', 'ô'), ('Õ', 'õ'), ('Ö', 'ö'), ('Ø', 'ø'),
   ('Ù', 'ù'), ('Ú', 'ú'), ('Û', 'û'), ('Ü', 'ü'),
   ('Ñ', 'ñ'), ('Ç', 'ç')]

/-- One character of `str.lower()`. -/
def lowerChar (c : Char) : Char :=
  match lowerPairs.find? (fun p => p.1 == c) with
  | some p => p.2
  | none => c

/-- The seven accent-folding substitutions, combined into one character
map. -/
def accentPairs : List (Char × Char) :=
  [('à', 'a'), ('á', 'a'), ('â', 'a'), ('ã', 'a'), ('ä', 'a'), ('å', 'a'),
   ('è', 'e'), ('é', 'e'), ('ê', 'e'), ('ë', 'e'),
   ('ì', 'i'), ('í', 'i'), ('î', 'i'), ('ï', 'i'),
   ('ò', 'o'), ('ó', 'o'), ('ô', 'o'), ('õ', 'o'), ('ö', 'o'), ('ø', 'o'),
   ('ù', 'u'), ('ú', 'u'), ('û', 'u'), ('ü', 'u'),
   ('ñ', 'n'), ('ç', 'c')]

/-- One character of the accent-folding substitutions. -/
def foldAccentChar (c : Char) : Char :=
  match accentPairs.find? (fun p => p.1 == c) with
  | some p => p.2
  | none => c

/-- The regex class `\s` (ASCII part), also the class used by
`str.strip()`. -/
def isSpaceChar (c : Char) : Bool :=
  c == ' ' || c == '\t' || c == '\n' || c == '\r' || c == '\x0b' || c == '\x0c'

/-- The regex class `\w` (ASCII part): letters, digits, underscore. -/
def isWordChar (c : Char) : Bool :=
  c.isAlphanum || c == '_'

/-- One character of `re.sub(r'[^\w\s]', ' ', ...)`. -/
def punctToSpace (c : Char) : Char :=
  if isWordChar c || isSpaceChar c then c else ' '

/-- `str.strip()`: drop leading and trailing whitespace. -/
def stripChars (l : List Char) : List Char :=
  ((l.dropWhile isSpaceChar).reverse.dropWhile isSpaceChar).reverse

/-- `re.sub(r'\s+', ' ', ...)`: the flag records whether the previous
character was whitespace, so each maximal whitespace run emits a single
`' '`. -/
def collapseAux : Bool → List Char → List Char
  | _, [] => []
  | true, c :: cs =>
    if isSpaceChar c then collapseAux true cs
    else c :: collapseAux false cs
  | false, c :: cs =>
    if isSpaceChar c then ' ' :: collapseAux true cs
    else c :: collapseAux false cs

/-- `re.sub(r'\s+', ' ', ...)` on a whole string. -/
def collapseWs (l : List Char) : List Char :=
  collapseAux false l

/-- The full `normalize_name` pipeline on character lists: lower, strip,
fold accents, punctuation to space, collapse whitespace, strip. -/
def normList (l : List Char) : List Char :=
  stripChars (collapseWs
    (((stripChars (l.map lowerChar)).map foldAccentChar).map punctToSpace))

/-- `normalize_name` on strings.  (For falsy input — the empty string — the
Python function returns `""` early; `normList []` is `[]`, so the early
return coincides with the pipeline.) -/
def normalize_name (s : String) : String :=
  String.mk (normList s.data)

/-! ## Fuzzy identity matcher
(`scripts/targeted_player_scraper.py`, `find_players_with_debug`)

A candidate is one dataframe row, reduced to the two fields the matcher
reads: `str(row.get('Player', ''))` and `str(row.get('Squad', ''))` (a
missing field reads as `""`).  A target is one entry of the
`TARGET_PLAYERS` configuration. -/

/-- One scanned row: name field and affiliation (squad) field. -/
structure Candidate where
  player : String
  squad : String
  deriving DecidableEq, Repr

/-- One target entity: primary name, alternate names, primary club,
alternate clubs. -/
structure Target where
  primary_name : String
  alt_names : List String
  club : String
  alt_clubs : List String
  deriving DecidableEq, Repr

/-- Python's substring test `needle in hay` on character lists: `needle` is
a contiguous infix of `hay`. -/
def isSubstrL (needle hay : List Char) : Bool :=
  hay.tails.any (fun t => needle.isPrefixOf t)

/-- Python's substring test on strings. -/
def isSubstrOf (needle hay : String) : Bool :=
  isSubstrL needle.data hay.data

/-- The per-variant test of the matcher:
`norm_target in norm_player or norm_player in norm_target`. -/
def variantTest (variant cand : String) : Bool :=
  isSubstrOf (normalize_name variant) (normalize_name cand) ||
  isSubstrOf (normalize_name cand) (normalize_name variant)

/-- `[primary_name] + alt_names`. -/
def nameVariants (t : Target) : List String :=
  t.primary_name :: t.alt_names

/-- `[club] + alt_clubs`. -/
def clubVariants (t : Target) : List String :=
  t.club :: t.alt_clubs

/-- The name half of the match: some name variant passes the symmetric
containment test. -/
def nameMatches (t : Target) (c : Candidate) : Bool :=
  (nameVariants t).any (fun v => variantTest v c.player)

/-- The club half of the match. -/
def clubMatches (t : Target) (c : Candidate) : Bool :=
  (clubVariants t).any (fun v => variantTest v c.squad)

/-- `if name_matches and club_matches`: the acceptance test for one row. -/
def accepts (t : Target) (c : Candidate) : Bool :=
  nameMatches t c && clubMatches t c

/-- The per-target scan: the row loop appends the first accepted row and
breaks, i.e. returns the first candidate passing `accepts`. -/
def findPlayerForTarget (t : Target) (rows : List Candidate) :
    Option Candidate :=
  rows.find? (accepts t)

/-- `find_players_with_debug`: for each target in order, at most one row —
the first accepted one — is appended to the result. -/
def find_players_with_debug (targets : List Target) (rows : List Candidate) :
    List Candidate :=
  targets.filterMap (fun t => findPlayerForTarget t rows)

theorem isSubstrL_nil (hay : List Char) : isSubstrL [] hay = true := by
  cases hay with
  | nil => rfl
  | cons a as => rfl

theorem isPrefixOf_self (l : List Char) : l.isPrefixOf l = true := by
  induction l with
  | nil => rfl
  | cons a as ih => simp [List.isPrefixOf, ih]

theorem isSubstrL_self (l : List Char) : isSubstrL l l = true := by
  cases l with
  | nil => rfl
  | cons a as =>
    simp only [isSubstrL, List.tails, List.any_cons]
    rw [isPrefixOf_self]
    rfl

theorem variantTest_same_norm (v cand : String)
    (h : normalize_name v = normalize_name cand) :
    variantTest v cand = true := by
  simp only [variantTest, h, isSubstrOf, isSubstrL_self, Bool.true_or]

/-- An exact normalized match on both fields passes the acceptance test. -/
theorem exact_variant_accepts (t : Target) (c : Candidate)
    (hname : normalize_name c.player ∈ (nameVariants t).map normalize_name)
    (hclub : normalize_name c.squad ∈ (clubVariants t).map normalize_name) :
    accepts t c = true := by
  obtain ⟨v, hv, hveq⟩ := List.mem_map.mp hname
  obtain ⟨w, hw, hweq⟩ := List.mem_map.mp hclub
  have h1 : nameMatches t c = true :=
    List.any_eq_true.mpr ⟨v, hv, variantTest_same_norm v c.player hveq⟩
  have h2 : clubMatches t c = true :=
    List.any_eq_true.mpr ⟨w, hw, variantTest_same_norm w c.squad hweq⟩
  simp [accepts, h1, h2]

/-- C1 (amended).  If a candidate's normalized name is exactly one of the
target's normalized name variants and its normalized affiliation is exactly
one of the normalized affiliation variants, then the candidate passes the
acceptance test, and the matcher selects it provided every earlier candidate
in the list fails the acceptance test; when an earlier candidate also passes
(e.g. by substring containment), first-accepted-candidate-wins selects that
earlier candidate instead. -/
theorem matcher_exact_match_selected_of_earlier_unmatched (t : Target)
    (pre post : List Candidate) (c : Candidate)
    (hname : normalize_name c.player ∈ (nameVariants t).map normalize_name)
    (hclub : normalize_name c.squad ∈ (clubVariants t).map normalize_name)
    (hpre : ∀ d ∈ pre, accepts t d = false) :
    findPlayerForTarget t (pre ++ c :: post) = some c ∧
    find_players_with_debug [t] (pre ++ c :: post) = [c] := by
  have hacc : accepts t c = true := exact_variant_accepts t c hname hclub
  have hfind : findPlayerForTarget t (pre ++ c :: post) = some c := by
    induction pre with
    | nil => simp [findPlayerForTarget, List.find?_cons_of_pos, hacc]
    | cons d ds ih =>
      have hd : accepts t d = false := hpre d (by simp)
      have hds : ∀ x ∈ ds, accepts t x = false :=
        fun x hx => hpre x (by simp [hx])
      simpa [findPlayerForTarget, List.find?_cons_of_neg, hd] using ih hds
  exact ⟨hfind, by simp [find_players_with_debug, hfind]⟩

/-- Closed witness for `matcher_exact_match_selected_of_earlier_unmatched`:
an exactly-matching candidate preceded by one non-matching row is
selected. -/
theorem matcher_exact_match_selected_witness :
    findPlayerForTarget ⟨"Wirtz", [], "Leverkusen", []⟩
      [⟨"Other", "Nowhere"⟩, ⟨"Wirtz", "Leverkusen"⟩] =
      some ⟨"Wirtz", "Leverkusen"⟩ ∧
    find_players_with_debug [⟨"Wirtz", [], "Leverkusen", []⟩]
      [⟨"Other", "Nowhere"⟩, ⟨"Wirtz", "Leverkusen"⟩] =
      [⟨"Wirtz", "Leverkusen"⟩] :=
  matcher_exact_match_selected_of_earlier_unmatched
    ⟨"Wirtz", [], "Leverkusen", []⟩
    [⟨"Other", "Nowhere"⟩] [] ⟨"Wirtz", "Leverkusen"⟩
    (by decide) (by decide) (by decide)

/-- C1 (counterexample to the claim as stated).  With target name `Wirtz`
and club `Leverkusen`, the row list
`[("Wirtzmann", "Leverkusen"), ("Wirtz", "Leverkusen")]` contains a
candidate whose normalized name and affiliation are exactly equal to
normalized variants, yet the matcher selects the earlier
substring-containment match `Wirtzmann`, not that candidate. -/
theorem matcher_first_wins_overrides_exact_cx :
    (normalize_name "Wirtz" ∈
      (nameVariants ⟨"Wirtz", [], "Leverkusen", []⟩).map normalize_name) ∧
    (normalize_name "Leverkusen" ∈
      (clubVariants ⟨"Wirtz", [], "Leverkusen", []⟩).map normalize_name) ∧
    accepts ⟨"Wirtz", [], "Leverkusen", []⟩ ⟨"Wirtzmann", "Leverkusen"⟩ =
      true ∧
    findPlayerForTarget ⟨"Wirtz", [], "Leverkusen", []⟩
      [⟨"Wirtzmann", "Leverkusen"⟩, ⟨"Wirtz", "Leverkusen"⟩] =
      some ⟨"Wirtzmann", "Leverkusen"⟩ ∧
    findPlayerForTarget ⟨"Wirtz", [], "Leverkusen", []⟩
      [⟨"Wirtzmann", "Leverkusen"⟩, ⟨"Wirtz", "Leverkusen"⟩] ≠
      some ⟨"Wirtz", "Leverkusen"⟩ := by
  decide

theorem variantTest_empty_cand (v : String) : variantTest v "" = true := by
  have h1 : isSubstrOf (normalize_name "") (normalize_name v) = true :=
    isSubstrL_nil (normalize_name v).data
  simp only [variantTest, h1, Bool.or_true]

/-- C6.  An empty (or missing, which reads as empty) name or affiliation
field normalizes to the empty string and passes the containment test
against every variant of every target — every target has at least its
primary name and primary club as variants — and a candidate with both
fields empty is accepted for any target. -/
theorem matcher_empty_field_matches (t : Target) (c : Candidate) :
    normalize_name "" = "" ∧
    (c.player = "" → ∀ v ∈ nameVariants t, variantTest v c.player = true) ∧
    (c.player = "" → nameMatches t c = true) ∧
    (c.squad = "" → ∀ v ∈ clubVariants t, variantTest v c.squad = true) ∧
    (c.squad = "" → clubMatches t c = true) ∧
    accepts t ⟨"", ""⟩ = true := by
  refine ⟨rfl, ?_, ?_, ?_, ?_, ?_⟩
  · intro hp v _
    rw [hp]; exact variantTest_empty_cand v
  · intro hp
    refine List.any_eq_true.mpr ⟨t.primary_name, by simp [nameVariants], ?_⟩
    rw [hp]; exact variantTest_empty_cand t.primary_name
  · intro hs v _
    rw [hs]; exact variantTest_empty_cand v
  · intro hs
    refine List.any_eq_true.mpr ⟨t.club, by simp [clubVariants], ?_⟩
    rw [hs]; exact variantTest_empty_cand t.club
  · have h1 : nameMatches t ⟨"", ""⟩ = true :=
      List.any_eq_true.mpr ⟨t.primary_name, by simp [nameVariants],
        variantTest_empty_cand t.primary_name⟩
    have h2 : clubMatches t ⟨"", ""⟩ = true :=
      List.any_eq_true.mpr ⟨t.club, by simp [clubVariants],
        variantTest_empty_cand t.club⟩
    simp [accepts, h1, h2]

/-! ## Idempotence of normalization (C5)

The output of `normList` contains only characters that every stage of the
pipeline keeps fixed — lowering, accent folding and the punctuation
replacement do nothing to them, and the only whitespace character left is
`' '` — and it has no two adjacent whitespace characters and no leading or
trailing whitespace.  A list with these properties is a fixed point of the
whole pipeline. -/

/-- A character the whole pipeline keeps fixed. -/
def charFixed (c : Char) : Prop :=
  lowerChar c = c ∧ foldAccentChar c = c ∧ punctToSpace c = c ∧
    (isSpaceChar c = true → c = ' ')

/-- No two adjacent whitespace characters. -/
def noTwoSpaces (a b : Char) : Prop :=
  ¬(isSpaceChar a = true ∧ isSpaceChar b = true)

theorem stripChars_eq (l : List Char) :
    stripChars l =
      List.rdropWhile isSpaceChar (List.dropWhile isSpaceChar l) := rfl

theorem lowerChar_value_fix : ∀ p ∈ lowerPairs, lowerChar p.2 = p.2 := by
  decide

theorem foldAccentChar_value_fix :
    ∀ p ∈ accentPairs, foldAccentChar p.2 = p.2 := by
  decide

theorem lowerChar_accent_value_fix :
    ∀ p ∈ accentPairs, lowerChar p.2 = p.2 := by
  decide

theorem lowerChar_cases (c : Char) :
    lowerChar c = c ∨ ∃ p ∈ lowerPairs, lowerChar c = p.2 := by
  cases h : lowerPairs.find? (fun p => p.1 == c) with
  | none => left; unfold lowerChar; rw [h]
  | some p =>
    right
    exact ⟨p, List.mem_of_find?_eq_some h, by unfold lowerChar; rw [h]⟩

theorem foldAccentChar_cases (c : Char) :
    foldAccentChar c = c ∨ ∃ p ∈ accentPairs, foldAccentChar c = p.2 := by
  cases h : accentPairs.find? (fun p => p.1 == c) with
  | none => left; unfold foldAccentChar; rw [h]
  | some p =>
    right
    exact ⟨p, List.mem_of_find?_eq_some h, by unfold foldAccentChar; rw [h]⟩

theorem lowerChar_idem (c : Char) : lowerChar (lowerChar c) = lowerChar c := by
  rcases lowerChar_cases c with h | ⟨p, hp, h⟩
  · rw [h, h]
  · rw [h]; exact lowerChar_value_fix p hp

theorem foldAccentChar_idem (c : Char) :
    foldAccentChar (foldAccentChar c) = foldAccentChar c := by
  rcases foldAccentChar_cases c with h | ⟨p, hp, h⟩
  · rw [h, h]
  · rw [h]; exact foldAccentChar_value_fix p hp

theorem lowerChar_foldAccent_lower (c : Char) :
    lowerChar (foldAccentChar (lowerChar c)) = foldAccentChar (lowerChar c) := by
  rcases foldAccentChar_cases (lowerChar c) with h | ⟨p, hp, h⟩
  · rw [h]; exact lowerChar_idem c
  · rw [h]; exact lowerChar_accent_value_fix p hp

theorem punctToSpace_cases (c : Char) :
    punctToSpace c = ' ' ∨
      (punctToSpace c = c ∧ (isWordChar c || isSpaceChar c) = true) := by
  unfold punctToSpace
  by_cases h : (isWordChar c || isSpaceChar c) = true
  · right; exact ⟨if_pos h, h⟩
  · left; exact if_neg h

theorem charFixed_blank : charFixed ' ' := by
  refine ⟨by decide, by decide, by decide, fun _ => rfl⟩

theorem mem_collapseAux (l : List Char) :
    ∀ (flag : Bool) (x : Char), x ∈ collapseAux flag l →
      x = ' ' ∨ (x ∈ l ∧ isSpaceChar x = false) := by
  induction l with
  | nil => intro flag x hx; cases flag <;> simp [collapseAux] at hx
  | cons c cs ih =>
    intro flag x hx
    by_cases hc : isSpaceChar c = true
    · cases flag with
      | true =>
        rw [collapseAux, if_pos hc] at hx
        rcases ih true x hx with h | ⟨h1, h2⟩
        · exact Or.inl h
        · exact Or.inr ⟨List.mem_cons_of_mem c h1, h2⟩
      | false =>
        rw [collapseAux, if_pos hc] at hx
        rcases List.mem_cons.mp hx with rfl | hx2
        · exact Or.inl rfl
        · rcases ih true x hx2 with h | ⟨h1, h2⟩
          · exact Or.inl h
          · exact Or.inr ⟨List.mem_cons_of_mem c h1, h2⟩
    · have hc' : isSpaceChar c = false := by
        cases hcc : isSpaceChar c with
        | false => rfl
        | true => exact absurd hcc hc
      have hstep : ∀ hx2 : x ∈ c :: collapseAux false cs,
          x = ' ' ∨ (x ∈ c :: cs ∧ isSpaceChar x = false) := by
        intro hx2
        rcases List.mem_cons.mp hx2 with rfl | hx3
        · exact Or.inr ⟨by simp, hc'⟩
        · rcases ih false x hx3 with h | ⟨h1, h2⟩
          · exact Or.inl h
          · exact Or.inr ⟨List.mem_cons_of_mem c h1, h2⟩
      cases flag with
      | true => rw [collapseAux, if_neg hc] at hx; exact hstep hx
      | false => rw [collapseAux, if_neg hc] at hx; exact hstep hx

theorem collapseAux_head_true (l : List Char) :
    ∀ x ∈ (collapseAux true l).head?, isSpaceChar x = false := by
  induction l with
  | nil => intro x hx; exact Option.noConfusion hx
  | cons c cs ih =>
    intro x hx
    by_cases hc : isSpaceChar c = true
    · rw [collapseAux, if_pos hc] at hx
      exact ih x hx
    · rw [collapseAux, if_neg hc] at hx
      have hxc : c = x := Option.some_inj.mp hx
      subst hxc
      cases hcc : isSpaceChar c with
      | false => rfl
      | true => exact absurd hcc hc

theorem collapseAux_chain (l : List Char) :
    ∀ flag, List.Chain' noTwoSpaces (collapseAux flag l) := by
  induction l with
  | nil => intro flag; cases flag <;> exact List.chain'_nil
  | cons c cs ih =>
    intro flag
    by_cases hc : isSpaceChar c = true
    · cases flag with
      | true => rw [collapseAux, if_pos hc]; exact ih true
      | false =>
        rw [collapseAux, if_pos hc]
        rw [List.chain'_cons']
        refine ⟨fun y hy => ?_, ih true⟩
        intro hcon
        rw [collapseAux_head_true cs y hy] at hcon
        exact Bool.false_ne_true hcon.2
    · have hnon : ∀ y, noTwoSpaces c y := fun y hcon => hc hcon.1
      cases flag with
      | true =>
        rw [collapseAux, if_neg hc, List.chain'_cons']
        exact ⟨fun y _ => hnon y, ih false⟩
      | false =>
        rw [collapseAux, if_neg hc, List.chain'_cons']
        exact ⟨fun y _ => hnon y, ih false⟩

theorem collapseAux_eq_self (l : List Char)
    (hsp : ∀ x ∈ l, isSpaceChar x = true → x = ' ')
    (hch : List.Chain' noTwoSpaces l) :
    collapseAux false l = l ∧
      ((∀ x ∈ l.head?, isSpaceChar x = false) → collapseAux true l = l) := by
  induction l with
  | nil => exact ⟨rfl, fun _ => rfl⟩
  | cons c cs ih =>
    have hcs_sp : ∀ x ∈ cs, isSpaceChar x = true → x = ' ' :=
      fun x hx => hsp x (List.mem_cons_of_mem c hx)
    rw [List.chain'_cons'] at hch
    obtain ⟨hR, hch2⟩ := hch
    obtain ⟨ih1, ih2⟩ := ih hcs_sp hch2
    by_cases hc : isSpaceChar c = true
    · have hcEq : c = ' ' := hsp c (List.mem_cons_self c cs) hc
      have hcs_head : ∀ x ∈ cs.head?, isSpaceChar x = false := by
        intro x hx
        cases hxs : isSpaceChar x with
        | false => rfl
        | true => exact absurd ⟨hc, hxs⟩ (hR x hx)
      have htrue : collapseAux true cs = cs := ih2 hcs_head
      refine ⟨?_, ?_⟩
      · rw [collapseAux, if_pos hc, htrue, hcEq]
      · intro hhead
        have := hhead c rfl
        rw [this] at hc
        exact absurd hc Bool.false_ne_true
    · refine ⟨?_, fun _ => ?_⟩
      · rw [collapseAux, if_neg hc, ih1]
      · rw [collapseAux, if_neg hc, ih1]

theorem stripChars_isInfix (l : List Char) : stripChars l <:+: l := by
  rw [stripChars_eq]
  exact (List.rdropWhile_prefix isSpaceChar
    (List.dropWhile isSpaceChar l)).isInfix.trans
    (List.dropWhile_suffix isSpaceChar).isInfix

theorem stripChars_head (l : List Char) :
    ∀ x ∈ (stripChars l).head?, isSpaceChar x = false := by
  intro x hx
  have hne : stripChars l ≠ [] := by
    intro h0; rw [h0] at hx; exact Option.noConfusion hx
  have hxh : (stripChars l).head hne = x := by
    have h1 := List.head?_eq_head hne
    rw [h1] at hx
    exact Option.some_inj.mp hx
  have hpre := List.rdropWhile_prefix isSpaceChar
    (List.dropWhile isSpaceChar l)
  have hne' : List.rdropWhile isSpaceChar
      (List.dropWhile isSpaceChar l) ≠ [] := hne
  have hdne : List.dropWhile isSpaceChar l ≠ [] := by
    intro h0
    apply hne'
    rw [h0]
    simp [List.rdropWhile]
  have hhead := List.IsPrefix.head hpre hne'
  have hlen : 0 < (List.dropWhile isSpaceChar l).length :=
    List.length_pos.mpr hdne
  have hget := List.dropWhile_get_zero_not isSpaceChar l hlen
  rw [List.get_mk_zero hlen] at hget
  have hx2 : x = (List.dropWhile isSpaceChar l).head
      (List.length_pos.mp hlen) := by
    rw [← hxh]
    exact hhead
  rw [hx2]
  cases hb : isSpaceChar ((List.dropWhile isSpaceChar l).head
      (List.length_pos.mp hlen)) with
  | false => rfl
  | true => exact absurd hb hget

theorem stripChars_last (l : List Char) :
    ∀ hne : stripChars l ≠ [],
      isSpaceChar ((stripChars l).getLast hne) = false := by
  intro hne
  have h := List.rdropWhile_last_not isSpaceChar
    (List.dropWhile isSpaceChar l) (by rw [stripChars_eq] at hne; exact hne)
  cases hb : isSpaceChar ((stripChars l).getLast hne) with
  | false => rfl
  | true =>
    exfalso
    apply h
    rw [show (List.rdropWhile isSpaceChar
      (List.dropWhile isSpaceChar l)).getLast
        (by rw [stripChars_eq] at hne; exact hne) =
      (stripChars l).getLast hne from rfl]
    exact hb

theorem stripChars_eq_self (l : List Char)
    (h1 : ∀ x ∈ l.head?, isSpaceChar x = false)
    (h2 : ∀ hne : l ≠ [], isSpaceChar (l.getLast hne) = false) :
    stripChars l = l := by
  rw [stripChars_eq]
  have hd : List.dropWhile isSpaceChar l = l := by
    cases l with
    | nil => rfl
    | cons c cs =>
      have hc := h1 c rfl
      rw [List.dropWhile_cons, if_neg (by rw [hc]; exact Bool.false_ne_true)]
  rw [hd]
  rw [List.rdropWhile_eq_self_iff]
  intro hne hp
  rw [h2 hne] at hp
  exact Bool.false_ne_true hp

theorem map_fix {f : Char → Char} (l : List Char)
    (h : ∀ c ∈ l, f c = c) : l.map f = l := by
  induction l with
  | nil => rfl
  | cons c cs ih =>
    rw [List.map_cons, h c (List.mem_cons_self c cs),
      ih (fun x hx => h x (List.mem_cons_of_mem c hx))]

/-- Every character of a normalized string is fixed by every stage of the
pipeline, and its only whitespace form is `' '`. -/
theorem normList_chars (l : List Char) : ∀ c ∈ normList l, charFixed c := by
  intro c hc
  have hc1 : c ∈ collapseWs
      (((stripChars (l.map lowerChar)).map foldAccentChar).map punctToSpace) :=
    (stripChars_isInfix _).mem hc
  rcases mem_collapseAux _ false c hc1 with rfl | ⟨hcw, hcsp⟩
  · exact charFixed_blank
  · obtain ⟨b, hb, rfl⟩ := List.mem_map.mp hcw
    obtain ⟨a2, ha2, rfl⟩ := List.mem_map.mp hb
    have ha2' : a2 ∈ l.map lowerChar := (stripChars_isInfix _).mem ha2
    obtain ⟨a, _, rfl⟩ := List.mem_map.mp ha2'
    rcases punctToSpace_cases (foldAccentChar (lowerChar a)) with hp | ⟨hp, _⟩
    · exfalso
      rw [hp] at hcsp
      exact absurd hcsp (by decide)
    · rw [hp] at hcsp ⊢
      refine ⟨lowerChar_foldAccent_lower a, foldAccentChar_idem (lowerChar a),
        hp, fun hsp => ?_⟩
      rw [hsp] at hcsp
      exact Bool.noConfusion hcsp

theorem normList_chain (l : List Char) :
    List.Chain' noTwoSpaces (normList l) :=
  List.Chain'.infix (collapseAux_chain _ false) (stripChars_isInfix _)

theorem normList_idem (l : List Char) : normList (normList l) = normList l := by
  have hfix : ∀ c ∈ normList l, charFixed c := normList_chars l
  have hlower : (normList l).map lowerChar = normList l :=
    map_fix _ (fun c hc => (hfix c hc).1)
  have hhead : ∀ x ∈ (normList l).head?, isSpaceChar x = false :=
    stripChars_head _
  have hlast : ∀ hne : normList l ≠ [],
      isSpaceChar ((normList l).getLast hne) = false :=
    stripChars_last _
  have hstrip : stripChars (normList l) = normList l :=
    stripChars_eq_self _ hhead hlast
  have hfold : (normList l).map foldAccentChar = normList l :=
    map_fix _ (fun c hc => (hfix c hc).2.1)
  have hpunct : (normList l).map punctToSpace = normList l :=
    map_fix _ (fun c hc => (hfix c hc).2.2.1)
  have hcollapse : collapseWs (normList l) = normList l :=
    (collapseAux_eq_self _ (fun x hx h => (hfix x hx).2.2.2 h)
      (normList_chain l)).1
  show stripChars (collapseWs (((stripChars
    ((normList l).map lowerChar)).map foldAccentChar).map punctToSpace)) =
      normList l
  rw [hlower, hstrip, hfold, hpunct, hcollapse, hstrip]

/-- C5.  Normalization is idempotent: normalizing an already-normalized
string returns it unchanged. -/
theorem normalize_name_idempotent (s : String) :
    normalize_name (normalize_name s) = normalize_name s := by
  simp only [normalize_name]
  rw [normList_idem]

/-- Sanity check of the pipeline on a concrete accented, punctuated,
multi-space input. -/
theorem normalize_name_example :
    normalize_name "  Martín O.  Zubimendi " = "martin o zubimendi" := by
  decide

/-- Closed witness for `matcher_empty_field_matches`, at a concrete target
and the both-fields-empty candidate. -/
theorem matcher_empty_field_matches_witness :
    nameMatches ⟨"Yasin Ozcan", ["Y. Ozcan"], "Kasimpasa", []⟩ ⟨"", ""⟩ =
      true ∧
    accepts ⟨"Yasin Ozcan", ["Y. Ozcan"], "Kasimpasa", []⟩ ⟨"", ""⟩ =
      true := by
  have h := matcher_empty_field_matches
    ⟨"Yasin Ozcan", ["Y. Ozcan"], "Kasimpasa", []⟩ ⟨"", ""⟩
  exact ⟨h.2.2.1 rfl, h.2.2.2.2.2⟩

/-! ## Dataset merge-and-update and validation (`import_collected_stats.py`)

Parsed JSON is modelled with a scalar value type `JVal` for record field
values (the dataset's stat fields are numbers and strings), records
(Python dicts) as association lists `Record`, the elements of the top-level
parsed array as `JEntry` (an object, or a non-object element — validation
only asks whether an element is an object), and the parsed file itself as
`JTop`.  File reads/writes are external: `import_player_stats` is modelled
on already-parsed data, with its file effects reified as a list of
`FileOp`s and the `datetime.now().strftime('%Y%m%d-%H%M%S')` timestamp as
a parameter `ts`. -/

/-- A scalar JSON value: a record field's value. -/
inductive JVal where
  | null
  | bool (b : Bool)
  | num (n : Int)
  | str (s : String)
  deriving DecidableEq, Repr

/-- A JSON object (Python dict) with scalar values, as an association
list in insertion order. -/
abbrev Record := List (String × JVal)

/-- One element of the top-level parsed array. -/
inductive JEntry where
  | obj (fields : Record)
  | atom (v : JVal)
  deriving DecidableEq, Repr

/-- A parsed input file: a JSON array, or something that is not a list. -/
inductive JTop where
  | list (entries : List JEntry)
  | nonList
  deriving DecidableEq, Repr

/-- `d[k]` lookup / `k in d` test on a dict: the first binding of `k` (a
Python dict has at most one). -/
def recGet : Record → String → Option JVal
  | [], _ => none
  | (k', v') :: r, k => if k' == k then some v' else recGet r k

/-- `d.get(k, dflt)`. -/
def recGetD (r : Record) (k : String) (dflt : JVal) : JVal :=
  (recGet r k).getD dflt

/-- `d[k] = v`: replace the value of an existing binding in place, else
append a new binding. -/
def recSet : Record → String → JVal → Record
  | [], k, v => [(k, v)]
  | (k', v') :: r, k, v =>
    if k' == k then (k, v) :: r else (k', v') :: recSet r k v

/-- Python `str.strip()`. -/
def stripStr (s : String) : String :=
  String.mk (stripChars s.data)

/-- The `stats_to_update` whitelist of `import_player_stats` (lines
55-61). -/
def statsToUpdate : List String :=
  ["minutes", "goals", "assists", "assistsSecond",
   "shotsOnTarget", "shots", "keyPasses", "tacklesWon",
   "interceptions", "clearances", "blockedShots", "aerialsWon",
   "saves", "cleanSheets", "goalsConceded", "pkSaves",
   "yellowCards", "redCards"]

/-- Whether the loop body records a change for field `stat`:
`stat in player_stats and player_stats[stat] != original_player.get(stat, 0)`. -/
def fieldChanges (orig u : Record) (stat : String) : Bool :=
  match recGet u stat with
  | none => false
  | some v => if v = recGetD orig stat (JVal.num 0) then false else true

/-- One iteration of the `for stat in stats_to_update` loop: state is the
player record being mutated and the length of the `changes` list. -/
def updStep (u : Record) (p : Record × Nat) (stat : String) : Record × Nat :=
  match recGet u stat with
  | none => p
  | some v =>
    if v = recGetD p.1 stat (JVal.num 0) then p
    else (recSet p.1 stat v, p.2 + 1)

/-- The whole `for stat in stats_to_update` loop for one update applied to
one current record: the updated record and the number of recorded
changes. -/
def applyUpdate (orig u : Record) : Record × Nat :=
  statsToUpdate.foldl (updStep u) (orig, 0)

/-- The mutable state of `import_player_stats`: the dataset list and the
two counters. -/
structure ImportState where
  data : List Record
  updated : Nat
  notFound : Nat
  deriving DecidableEq, Repr

/-- `player_dict = {player['name']: i for i, player in enumerate(fpl_data)}`
followed by `player_dict[player_name]`: on duplicate names the
comprehension keeps the last index. -/
def lastIdx : List JVal → JVal → Option Nat
  | [], _ => none
  | x :: rest, v =>
    match lastIdx rest v with
    | some j => some (j + 1)
    | none => if x = v then some 0 else none

/-- The body of the `for player_stats in collected_stats` loop, after the
update's name has been extracted and stripped.  `names` is the name column
of the original dataset (the dict is built once, before the loop; record
names are never among the updated fields, so the indices stay valid). -/
def processNamed (names : List JVal) (st : ImportState) (u : Record)
    (nm : String) : ImportState :=
  if nm = "" then st
  else
    match lastIdx names (JVal.str nm) with
    | none => { st with notFound := st.notFound + 1 }
    | some i =>
      match st.data.get? i with
      | none => st
      | some orig =>
        { st with
            data := st.data.set i (applyUpdate orig u).1,
            updated := st.updated +
              (if 0 < (applyUpdate orig u).2 then 1 else 0) }

/-- One update record: `player_stats.get('name', '').strip()` — a missing
name reads as `''`, a non-string name has no `.strip` and raises
`AttributeError` (modelled as `none`), an empty stripped name skips the
entry. -/
def processUpdate (names : List JVal) (st : ImportState) (u : Record) :
    Option ImportState :=
  match recGet u "name" with
  | none => some (processNamed names st u "")
  | some (JVal.str s) => some (processNamed names st u (stripStr s))
  | some _ => none

/-- The whole update loop of `import_player_stats` on parsed data: build
the name-to-index dict (`player['name']` raises `KeyError` — `none` — if a
dataset record has no name), then fold the updates. -/
def importAll (data updates : List Record) : Option ImportState :=
  match data.mapM (fun r => recGet r "name") with
  | none => none
  | some names => updates.foldlM (processUpdate names) ⟨data, 0, 0⟩

/-- A file-system effect of `import_player_stats`. -/
inductive FileOp where
  | rename (src dst : String)
  | write (path : String)
  deriving DecidableEq, Repr

/-- The end of `import_player_stats` (lines 91-106): if any record changed,
rename the dataset to a timestamped backup alongside it and write the
updated dataset to the original path; otherwise touch nothing. -/
def finalizeOps (updatedCount : Nat) (ts : String) : List FileOp :=
  if 0 < updatedCount then
    [FileOp.rename "public/fpl-data.json"
       ("public/fpl-data-backup-" ++ ts ++ ".json"),
     FileOp.write "public/fpl-data.json"]
  else []

/-- `import_player_stats` on parsed data: the final state and the file
operations performed, in order. -/
def importPlayerStats (data updates : List Record) (ts : String) :
    Option (ImportState × List FileOp) :=
  (importAll data updates).map (fun st => (st, finalizeOps st.updated ts))

/-- One printed diagnostic of `validate_stats_file` (positions are
1-based, as printed). -/
inductive ValidateMsg where
  | notAList
  | entryNotObject (pos : Nat)
  | missingField (pos : Nat) (field : String)
  | emptyName (pos : Nat)
  | validOk (count : Nat)
  deriving DecidableEq, Repr

/-- Outcome of the checks on one entry. -/
inductive CheckResult where
  | pass
  | fail (m : ValidateMsg)
  | crash
  deriving DecidableEq, Repr

/-- `required_fields = ['name', 'minutes', 'goals', 'assists']`. -/
def requiredFields : List String :=
  ["name", "minutes", "goals", "assists"]

/-- The per-entry checks, in source order: not a dict; first missing
required field; then `player['name'].strip()` — which raises
`AttributeError` (`crash`) when the name value is not a string — compared
against the empty string. -/
def checkEntry (i : Nat) (j : JEntry) : CheckResult :=
  match j with
  | JEntry.obj fields =>
    match requiredFields.find? (fun f => (recGet fields f).isNone) with
    | some f => CheckResult.fail (ValidateMsg.missingField (i + 1) f)
    | none =>
      match recGet fields "name" with
      | some (JVal.str s) =>
        if stripStr s = "" then
          CheckResult.fail (ValidateMsg.emptyName (i + 1))
        else CheckResult.pass
      | _ => CheckResult.crash
  | JEntry.atom _ => CheckResult.fail (ValidateMsg.entryNotObject (i + 1))

/-- The entry loop: stop at the first failing entry; `none` models an
uncaught exception. -/
def validateEntries : Nat → List JEntry → Option (Option ValidateMsg)
  | _, [] => some none
  | i, j :: rest =>
    match checkEntry i j with
    | CheckResult.pass => validateEntries (i + 1) rest
    | CheckResult.fail m => some (some m)
    | CheckResult.crash => none

/-- `validate_stats_file` on parsed data: `none` is an uncaught exception;
otherwise the returned boolean and the printed messages, in order (a
failure prints exactly the first violation; success prints the
"File format is valid (N players)" line). -/
def validate_stats_file (d : JTop) : Option (Bool × List ValidateMsg) :=
  match d with
  | JTop.list xs =>
    match validateEntries 0 xs with
    | none => none
    | some (some m) => some (false, [m])
    | some none => some (true, [ValidateMsg.validOk xs.length])
  | JTop.nonList => some (false, [ValidateMsg.notAList])

/-- The records handed to the merge by the `import` command (reached only
after successful validation, so every entry is an object). -/
def jsonRecords (d : JTop) : List Record :=
  match d with
  | JTop.list xs => xs.map (fun j => match j with
      | JEntry.obj fs => fs
      | JEntry.atom _ => [])
  | JTop.nonList => []

/-- Outcome of the `import <file>` command dispatch
(`if validate_stats_file(...): import_player_stats(...)`). -/
inductive CommandResult where
  | crashed
  | blocked
  | imported (r : Option (ImportState × List FileOp))
  deriving DecidableEq, Repr

/-- The `import <file>` command: validate, and run the merge only when
validation returned `True`. -/
def importCommand (statsData : JTop) (cur : List Record) (ts : String) :
    CommandResult :=
  match validate_stats_file statsData with
  | none => CommandResult.crashed
  | some (true, _) =>
      CommandResult.imported (importPlayerStats cur (jsonRecords statsData) ts)
  | some (false, _) => CommandResult.blocked

/-! ## Properties of the merge (C4, C7) -/

theorem recGet_recSet_same (r : Record) (k : String) (v : JVal) :
    recGet (recSet r k v) k = some v := by
  induction r with
  | nil => simp [recSet, recGet]
  | cons p r ih =>
    obtain ⟨k', v'⟩ := p
    by_cases h : k' = k
    · subst h
      simp [recSet, recGet]
    · have h2 : (k' == k) = false := by simpa using h
      simp [recSet, recGet, h2, ih]

theorem recGet_recSet_other (r : Record) (k k2 : String) (v : JVal)
    (h : k2 ≠ k) : recGet (recSet r k v) k2 = recGet r k2 := by
  induction r with
  | nil =>
    have h2 : (k == k2) = false := by simpa using Ne.symm h
    simp [recSet, recGet, h2]
  | cons p r ih =>
    obtain ⟨k', v'⟩ := p
    by_cases hk : k' = k
    · subst hk
      have h2 : (k' == k2) = false := by simpa using Ne.symm h
      simp [recSet, recGet, h2]
    · have h3 : (k' == k) = false := by simpa using hk
      by_cases hk2 : k' = k2
      · subst hk2
        simp [recSet, recGet, h3]
      · have h4 : (k' == k2) = false := by simpa using hk2
        simp [recSet, recGet, h3, h4, ih]

theorem fieldChanges_congr (r r2 u : Record) (f : String)
    (h : recGet r f = recGet r2 f) :
    fieldChanges r u f = fieldChanges r2 u f := by
  rw [fieldChanges, fieldChanges, recGetD, recGetD, h]

theorem updStep_cases (u r : Record) (n : Nat) (g : String) :
    (updStep u (r, n) g = (r, n) ∧ fieldChanges r u g = false) ∨
    (∃ v, recGet u g = some v ∧ fieldChanges r u g = true ∧
      updStep u (r, n) g = (recSet r g v, n + 1)) := by
  cases hu : recGet u g with
  | none =>
    left
    constructor
    · simp only [updStep, hu]
    · simp only [fieldChanges, hu]
  | some v =>
    by_cases hv : v = recGetD r g (JVal.num 0)
    · left
      constructor
      · simp only [updStep, hu]
        rw [if_pos hv]
      · simp only [fieldChanges, hu]
        rw [if_pos hv]
    · right
      refine ⟨v, rfl, ?_, ?_⟩
      · simp only [fieldChanges, hu]
        rw [if_neg hv]
      · simp only [updStep, hu]
        rw [if_neg hv]

theorem foldl_updStep_not_mem (u : Record) :
    ∀ (L : List String) (r : Record) (n : Nat) (f : String), f ∉ L →
      recGet ((L.foldl (updStep u) (r, n)).1) f = recGet r f := by
  intro L
  induction L with
  | nil => intro r n f _; rfl
  | cons g L ih =>
    intro r n f hf
    have hfg : f ≠ g := fun h => hf (h ▸ List.mem_cons_self g L)
    have hfL : f ∉ L := fun h => hf (List.mem_cons_of_mem g h)
    rw [List.foldl_cons]
    rcases updStep_cases u r n g with ⟨heq, -⟩ | ⟨v, -, -, heq⟩
    · rw [heq]; exact ih r n f hfL
    · rw [heq, ih _ _ f hfL]
      exact recGet_recSet_other r g f v hfg

theorem foldl_updStep_get (u : Record) :
    ∀ (L : List String) (r : Record) (n : Nat) (f : String), L.Nodup →
      recGet ((L.foldl (updStep u) (r, n)).1) f =
        if f ∈ L ∧ fieldChanges r u f = true then recGet u f
        else recGet r f := by
  intro L
  induction L with
  | nil =>
    intro r n f _
    rw [if_neg (by simp)]
    rfl
  | cons g L ih =>
    intro r n f hnd
    rw [List.nodup_cons] at hnd
    obtain ⟨hgL, hndL⟩ := hnd
    rw [List.foldl_cons]
    by_cases hfg : f = g
    · subst hfg
      rcases updStep_cases u r n f with ⟨heq, hch⟩ | ⟨v, hv, hch, heq⟩
      · rw [heq, foldl_updStep_not_mem u L r n f hgL, if_neg]
        rintro ⟨-, hch2⟩
        rw [hch] at hch2
        exact Bool.false_ne_true hch2
      · rw [heq, foldl_updStep_not_mem u L _ _ f hgL,
          if_pos ⟨List.mem_cons_self f L, hch⟩, recGet_recSet_same, hv]
    · rcases updStep_cases u r n g with ⟨heq, -⟩ | ⟨v, -, -, heq⟩
      · rw [heq, ih r n f hndL]
        by_cases hmem : f ∈ L ∧ fieldChanges r u f = true
        · rw [if_pos hmem, if_pos ⟨List.mem_cons_of_mem g hmem.1, hmem.2⟩]
        · rw [if_neg hmem, if_neg]
          rintro ⟨hin, hch⟩
          rcases List.mem_cons.mp hin with h | h
          · exact hfg h
          · exact hmem ⟨h, hch⟩
      · rw [heq, ih _ _ f hndL]
        have hr1 : recGet (recSet r g v) f = recGet r f :=
          recGet_recSet_other r g f v hfg
        rw [fieldChanges_congr _ r u f hr1]
        by_cases hmem : f ∈ L ∧ fieldChanges r u f = true
        · rw [if_pos hmem, if_pos ⟨List.mem_cons_of_mem g hmem.1, hmem.2⟩]
        · rw [if_neg hmem, hr1, if_neg]
          rintro ⟨hin, hch⟩
          rcases List.mem_cons.mp hin with h | h
          · exact hfg h
          · exact hmem ⟨h, hch⟩

theorem foldl_updStep_count (u : Record) :
    ∀ (L : List String) (r : Record) (n : Nat), L.Nodup →
      (L.foldl (updStep u) (r, n)).2 = n + L.countP (fieldChanges r u) := by
  intro L
  induction L with
  | nil => intro r n _; rfl
  | cons g L ih =>
    intro r n hnd
    rw [List.nodup_cons] at hnd
    obtain ⟨hgL, hndL⟩ := hnd
    rw [List.foldl_cons, List.countP_cons]
    rcases updStep_cases u r n g with ⟨heq, hch⟩ | ⟨v, -, hch, heq⟩
    · rw [heq, ih r n hndL, hch, if_neg Bool.false_ne_true]
      omega
    · rw [heq, ih _ _ hndL, hch, if_pos rfl]
      have hcong : L.countP (fieldChanges (recSet r g v) u) =
          L.countP (fieldChanges r u) := by
        apply List.countP_congr
        intro x hx
        have hxg : x ≠ g := fun h => hgL (h ▸ hx)
        rw [fieldChanges_congr _ _ u x (recGet_recSet_other r g x v hxg)]
      rw [hcong]
      omega

theorem foldl_updStep_count_le (u : Record) :
    ∀ (L : List String) (r : Record) (n : Nat),
      n ≤ (L.foldl (updStep u) (r, n)).2 := by
  intro L
  induction L with
  | nil => intro r n; exact Nat.le_refl n
  | cons g L ih =>
    intro r n
    rw [List.foldl_cons]
    rcases updStep_cases u r n g with ⟨heq, -⟩ | ⟨v, -, -, heq⟩
    · rw [heq]; exact ih r n
    · rw [heq]; exact Nat.le_of_succ_le (ih _ (n + 1))

theorem foldl_updStep_fst_eq (u : Record) :
    ∀ (L : List String) (r : Record) (n : Nat),
      (L.foldl (updStep u) (r, n)).2 = n →
      (L.foldl (updStep u) (r, n)).1 = r := by
  intro L
  induction L with
  | nil => intro r n _; rfl
  | cons g L ih =>
    intro r n h
    rw [List.foldl_cons] at h ⊢
    rcases updStep_cases u r n g with ⟨heq, -⟩ | ⟨v, -, -, heq⟩
    · rw [heq] at h ⊢; exact ih r n h
    · rw [heq] at h
      exfalso
      have := foldl_updStep_count_le u L (recSet r g v) (n + 1)
      omega

theorem set_self_of_get? {α : Type} :
    ∀ (l : List α) (i : Nat) (a : α), l.get? i = some a → l.set i a = l := by
  intro l
  induction l with
  | nil => intro i a h; exact Option.noConfusion h
  | cons x xs ih =>
    intro i a h
    cases i with
    | zero =>
      have hx : x = a := by simpa using h
      rw [List.set, hx]
    | succ j =>
      have hx : xs.get? j = some a := by simpa using h
      rw [List.set, ih j a hx]

theorem processNamed_inv (names : List JVal) (st : ImportState) (u : Record)
    (nm : String) :
    st.updated ≤ (processNamed names st u nm).updated ∧
    ((processNamed names st u nm).updated = st.updated →
      (processNamed names st u nm).data = st.data) := by
  by_cases h0 : nm = ""
  · simp only [processNamed, if_pos h0]
    exact ⟨Nat.le_refl _, fun _ => by trivial⟩
  · cases hidx : lastIdx names (JVal.str nm) with
    | none =>
      simp only [processNamed, if_neg h0, hidx]
      exact ⟨Nat.le_refl _, fun _ => by trivial⟩
    | some i =>
      cases horig : st.data.get? i with
      | none =>
        simp only [processNamed, if_neg h0, hidx, horig]
        exact ⟨Nat.le_refl _, fun _ => by trivial⟩
      | some orig =>
        simp only [processNamed, if_neg h0, hidx, horig]
        by_cases hn : 0 < (applyUpdate orig u).2
        · rw [if_pos hn]
          exact ⟨Nat.le_add_right _ 1, fun hcon => absurd hcon (by omega)⟩
        · rw [if_neg hn]
          have hn0 : (applyUpdate orig u).2 = 0 := by omega
          have hfst : (applyUpdate orig u).1 = orig :=
            foldl_updStep_fst_eq u statsToUpdate orig 0 hn0
          refine ⟨Nat.le_add_right _ 0, fun _ => ?_⟩
          show st.data.set i (applyUpdate orig u).1 = st.data
          rw [hfst]
          exact set_self_of_get? st.data i orig horig

theorem processUpdate_inv (names : List JVal) (st : ImportState) (u : Record)
    (st' : ImportState) (h : processUpdate names st u = some st') :
    st.updated ≤ st'.updated ∧
    (st'.updated = st.updated → st'.data = st.data) := by
  rw [processUpdate] at h
  cases hu : recGet u "name" with
  | none =>
    rw [hu] at h
    obtain rfl := Option.some_inj.mp h
    exact processNamed_inv names st u ""
  | some v =>
    cases v with
    | str s =>
      rw [hu] at h
      obtain rfl := Option.some_inj.mp h
      exact processNamed_inv names st u (stripStr s)
    | null => rw [hu] at h; exact Option.noConfusion h
    | bool b => rw [hu] at h; exact Option.noConfusion h
    | num m => rw [hu] at h; exact Option.noConfusion h

theorem foldlM_processUpdate_inv (names : List JVal) :
    ∀ (updates : List Record) (st st' : ImportState),
      updates.foldlM (processUpdate names) st = some st' →
      st.updated ≤ st'.updated ∧
      (st'.updated = st.updated → st'.data = st.data) := by
  intro updates
  induction updates with
  | nil =>
    intro st st' h
    obtain rfl := Option.some_inj.mp h
    exact ⟨Nat.le_refl _, fun _ => rfl⟩
  | cons u us ih =>
    intro st st' h
    rw [List.foldlM_cons] at h
    obtain ⟨mid, hmid, hrest⟩ := Option.bind_eq_some.mp h
    obtain ⟨h1, h2⟩ := processUpdate_inv names st u mid hmid
    obtain ⟨h3, h4⟩ := ih mid st' hrest
    refine ⟨Nat.le_trans h1 h3, fun heq => ?_⟩
    rw [h4 (by omega), h2 (by omega)]

/-- C7.  After processing all updates: if at least one record changed
(`updated_count > 0`), the dataset file is renamed to
`public/fpl-data-backup-<ts>.json` — `<ts>` standing for the
`datetime.now().strftime('%Y%m%d-%H%M%S')` timestamp — alongside the
original, and the updated dataset is written to the original path; if no
record changed, no file operation is performed at all (and the in-memory
dataset equals the input). -/
theorem import_backup_behavior (data updates : List Record) (ts : String)
    (st : ImportState) (ops : List FileOp)
    (h : importPlayerStats data updates ts = some (st, ops)) :
    (st.updated = 0 → ops = [] ∧ st.data = data) ∧
    (0 < st.updated →
      ops = [FileOp.rename "public/fpl-data.json"
               ("public/fpl-data-backup-" ++ ts ++ ".json"),
             FileOp.write "public/fpl-data.json"]) := by
  rw [importPlayerStats] at h
  cases hall : importAll data updates with
  | none => rw [hall] at h; exact Option.noConfusion h
  | some st0 =>
    rw [hall] at h
    simp only [Option.map_some'] at h
    obtain ⟨rfl, rfl⟩ := Prod.mk.inj (Option.some_inj.mp h)
    constructor
    · intro h0
      refine ⟨by simp [finalizeOps, h0], ?_⟩
      rw [importAll] at hall
      cases hnames : data.mapM (fun r => recGet r "name") with
      | none => rw [hnames] at hall; exact Option.noConfusion hall
      | some names =>
        rw [hnames] at hall
        have hinv := foldlM_processUpdate_inv names updates ⟨data, 0, 0⟩ st0 hall
        exact hinv.2 (by simpa using h0)
    · intro hpos
      simp [finalizeOps, hpos]

/-- Closed witness for `import_backup_behavior`: one changed record makes
the run back up the dataset and rewrite it. -/
theorem import_backup_behavior_witness :
    importPlayerStats
      [[("name", JVal.str "A"), ("goals", JVal.num 1)]]
      [[("name", JVal.str "A"), ("goals", JVal.num 2)]] "20250116-120000" =
      some (⟨[[("name", JVal.str "A"), ("goals", JVal.num 2)]], 1, 0⟩,
        [FileOp.rename "public/fpl-data.json"
           "public/fpl-data-backup-20250116-120000.json",
         FileOp.write "public/fpl-data.json"]) ∧
    [FileOp.rename "public/fpl-data.json"
       "public/fpl-data-backup-20250116-120000.json",
     FileOp.write "public/fpl-data.json"] =
      [FileOp.rename "public/fpl-data.json"
         ("public/fpl-data-backup-" ++ "20250116-120000" ++ ".json"),
       FileOp.write "public/fpl-data.json"] := by
  refine ⟨by decide, ?_⟩
  exact (import_backup_behavior
    [[("name", JVal.str "A"), ("goals", JVal.num 1)]]
    [[("name", JVal.str "A"), ("goals", JVal.num 2)]] "20250116-120000"
    ⟨[[("name", JVal.str "A"), ("goals", JVal.num 2)]], 1, 0⟩
    [FileOp.rename "public/fpl-data.json"
       "public/fpl-data-backup-20250116-120000.json",
     FileOp.write "public/fpl-data.json"]
    (by decide)).2 (by decide)

/-- C4 (amended).  For an update whose stripped name string is nonempty and
matches a current record: every field in the `stats_to_update` whitelist
that is present in the update and differs from the current value (a missing
current value reads as `0`) is overwritten with the update's value; every
other field of that record — including fields outside the whitelist, such
as `team` — keeps its current value; the number of recorded changes is the
number of such differing whitelisted fields; no other record is touched;
and the update/not-found bookkeeping is as described.  An update whose name
matches no current record leaves the dataset unchanged and increments the
not-found count. -/
theorem merge_update_spec (names : List JVal) (st : ImportState)
    (u : Record) (raw nm : String) (i : Nat) (orig : Record)
    (hname : recGet u "name" = some (JVal.str raw))
    (hstrip : stripStr raw = nm)
    (hnm : nm ≠ "")
    (hidx : lastIdx names (JVal.str nm) = some i)
    (horig : st.data.get? i = some orig) :
    processUpdate names st u =
      some { st with
        data := st.data.set i (applyUpdate orig u).1,
        updated := st.updated +
          (if 0 < (applyUpdate orig u).2 then 1 else 0) } ∧
    (∀ f v, f ∈ statsToUpdate → recGet u f = some v →
      v ≠ recGetD orig f (JVal.num 0) →
      recGet (applyUpdate orig u).1 f = some v) ∧
    (∀ f, f ∉ statsToUpdate ∨ fieldChanges orig u f = false →
      recGet (applyUpdate orig u).1 f = recGet orig f) ∧
    (applyUpdate orig u).2 = statsToUpdate.countP (fieldChanges orig u) ∧
    (∀ j, j ≠ i →
      (st.data.set i (applyUpdate orig u).1).get? j = st.data.get? j) ∧
    (∀ (u2 : Record) (raw2 : String),
      recGet u2 "name" = some (JVal.str raw2) → stripStr raw2 ≠ "" →
      lastIdx names (JVal.str (stripStr raw2)) = none →
      processUpdate names st u2 =
        some { st with notFound := st.notFound + 1 }) := by
  have hnd : statsToUpdate.Nodup := by decide
  refine ⟨?_, ?_, ?_, ?_, ?_, ?_⟩
  · simp only [processUpdate, hname, hstrip]
    simp only [processNamed, if_neg hnm, hidx, horig]
  · intro f v hf hv hvne
    have hch : fieldChanges orig u f = true := by
      simp only [fieldChanges, hv]
      rw [if_neg hvne]
    have := foldl_updStep_get u statsToUpdate orig 0 f hnd
    rw [applyUpdate, this, if_pos ⟨hf, hch⟩, hv]
  · intro f hdisj
    have := foldl_updStep_get u statsToUpdate orig 0 f hnd
    rw [applyUpdate, this, if_neg]
    rintro ⟨hmem, hch⟩
    rcases hdisj with h | h
    · exact h hmem
    · rw [h] at hch; exact Bool.false_ne_true hch
  · have := foldl_updStep_count u statsToUpdate orig 0 hnd
    rw [applyUpdate, this, Nat.zero_add]
  · intro j hj
    exact List.get?_set_ne _ _ (Ne.symm hj)
  · intro u2 raw2 hname2 hnm2 hidx2
    simp only [processUpdate, hname2]
    simp only [processNamed, if_neg hnm2, hidx2]

/-- Closed witness for `merge_update_spec`: the spec's two concrete
examples — update `goals 1 -> 2` applied with change-count 1, and an update
for an unknown name `B` counted as not found with the dataset unchanged. -/
theorem merge_update_spec_witness :
    processUpdate [JVal.str "A"]
      ⟨[[("name", JVal.str "A"), ("goals", JVal.num 1)]], 0, 0⟩
      [("name", JVal.str "A"), ("goals", JVal.num 2)] =
      some ⟨[[("name", JVal.str "A"), ("goals", JVal.num 2)]], 1, 0⟩ ∧
    (applyUpdate [("name", JVal.str "A"), ("goals", JVal.num 1)]
      [("name", JVal.str "A"), ("goals", JVal.num 2)]).2 = 1 ∧
    processUpdate [JVal.str "A"]
      ⟨[[("name", JVal.str "A"), ("goals", JVal.num 1)]], 0, 0⟩
      [("name", JVal.str "B"), ("goals", JVal.num 2)] =
      some ⟨[[("name", JVal.str "A"), ("goals", JVal.num 1)]], 0, 1⟩ := by
  have h := merge_update_spec [JVal.str "A"]
    ⟨[[("name", JVal.str "A"), ("goals", JVal.num 1)]], 0, 0⟩
    [("name", JVal.str "A"), ("goals", JVal.num 2)] "A" "A" 0
    [("name", JVal.str "A"), ("goals", JVal.num 1)]
    (by decide) (by decide) (by decide) (by decide) (by decide)
  refine ⟨h.1.trans (by decide), ?_, ?_⟩
  · rw [h.2.2.2.1]
    decide
  · exact (h.2.2.2.2.2 [("name", JVal.str "B"), ("goals", JVal.num 2)] "B"
      (by decide) (by decide) (by decide)).trans (by decide)

/-- C4 (counterexample to the claim as stated).  The field `team` is
present in the update and differs from the current value, yet the merge
leaves it unchanged (and records no change): only the 18 whitelisted stat
fields are ever overwritten, not every differing field of the update. -/
theorem merge_update_unlisted_field_cx :
    recGet [("name", JVal.str "A"), ("team", JVal.str "X")] "team" =
      some (JVal.str "X") ∧
    recGet [("name", JVal.str "A"), ("team", JVal.str "Y")] "team" =
      some (JVal.str "Y") ∧
    JVal.str "X" ≠ JVal.str "Y" ∧
    processUpdate [JVal.str "A"]
      ⟨[[("name", JVal.str "A"), ("team", JVal.str "Y")]], 0, 0⟩
      [("name", JVal.str "A"), ("team", JVal.str "X")] =
      some ⟨[[("name", JVal.str "A"), ("team", JVal.str "Y")]], 0, 0⟩ := by
  decide

/-! ## Properties of validation (C8, C9, C10) -/

theorem validateEntries_ok :
    ∀ (xs : List JEntry) (i : Nat), validateEntries i xs = some none →
      ∀ j ∈ xs, ∃ k, checkEntry k j = CheckResult.pass := by
  intro xs
  induction xs with
  | nil => intro i _ j hj; exact absurd hj (List.not_mem_nil j)
  | cons x rest ih =>
    intro i h j hj
    cases hck : checkEntry i x with
    | pass =>
      simp only [validateEntries, hck] at h
      rcases List.mem_cons.mp hj with rfl | hj2
      · exact ⟨i, hck⟩
      · exact ih (i + 1) h j hj2
    | fail m =>
      simp only [validateEntries, hck] at h
      exact absurd h (by simp)
    | crash =>
      simp only [validateEntries, hck] at h
      exact absurd h (by simp)

theorem checkEntry_missing_assists (k : Nat) (fields : Record)
    (h : recGet fields "assists" = none) :
    ∃ f, checkEntry k (JEntry.obj fields) =
      CheckResult.fail (ValidateMsg.missingField (k + 1) f) := by
  cases hf : requiredFields.find? (fun f => (recGet fields f).isNone) with
  | none =>
    exfalso
    have hmem : "assists" ∈ requiredFields := by decide
    have h2 := List.find?_eq_none.mp hf "assists" hmem
    rw [h] at h2
    exact h2 rfl
  | some f =>
    refine ⟨f, ?_⟩
    simp only [checkEntry, hf]

theorem validateEntries_append (rest : List JEntry) :
    ∀ (pre : List JEntry) (i : Nat),
      (∀ (k : Nat) (hk : k < pre.length),
        checkEntry (i + k) (pre.get ⟨k, hk⟩) = CheckResult.pass) →
      validateEntries i (pre ++ rest) =
        validateEntries (i + pre.length) rest := by
  intro pre
  induction pre with
  | nil => intro i _; simp
  | cons x p ih =>
    intro i h
    have h0 : checkEntry i x = CheckResult.pass := by
      have h1 := h 0 (by simp)
      simpa using h1
    rw [List.cons_append]
    simp only [validateEntries, h0]
    have hrec := ih (i + 1) (fun k hk => by
      have h2 := h (k + 1) (by simpa using Nat.succ_lt_succ hk)
      have h3 : i + (k + 1) = i + 1 + k := by omega
      rw [h3] at h2
      simpa using h2)
    rw [hrec, List.length_cons]
    congr 1
    omega

/-- C8 (amended).  An input array containing an object entry that lacks
`assists` can never validate successfully, so the import is blocked; and
when the first violation the scan meets (entries in order, required fields
in the order name, minutes, goals, assists) is that entry's missing
`assists`, the single printed diagnostic names that entry's 1-based
position and the field `assists`.  An earlier failing entry makes the
diagnostic name that earlier violation instead. -/
theorem validate_missing_assists_spec (pre post : List JEntry)
    (fields : Record) (vn vm vg : JVal)
    (hpre : ∀ (k : Nat) (hk : k < pre.length),
      checkEntry k (pre.get ⟨k, hk⟩) = CheckResult.pass)
    (hn : recGet fields "name" = some vn)
    (hm : recGet fields "minutes" = some vm)
    (hg : recGet fields "goals" = some vg)
    (ha : recGet fields "assists" = none) :
    validate_stats_file (JTop.list (pre ++ JEntry.obj fields :: post)) =
      some (false, [ValidateMsg.missingField (pre.length + 1) "assists"]) ∧
    (∀ xs msgs, JEntry.obj fields ∈ xs →
      validate_stats_file (JTop.list xs) ≠ some (true, msgs)) ∧
    (∀ cur ts,
      importCommand (JTop.list (pre ++ JEntry.obj fields :: post)) cur ts =
        CommandResult.blocked) := by
  have hfind : requiredFields.find? (fun f => (recGet fields f).isNone) =
      some "assists" := by
    simp [requiredFields, List.find?, hn, hm, hg, ha]
  have hcheck : ∀ k, checkEntry k (JEntry.obj fields) =
      CheckResult.fail (ValidateMsg.missingField (k + 1) "assists") := by
    intro k
    simp only [checkEntry, hfind]
  have happ := validateEntries_append (JEntry.obj fields :: post) pre 0
    (fun k hk => by simpa using hpre k hk)
  have hval : validateEntries 0 (pre ++ JEntry.obj fields :: post) =
      some (some (ValidateMsg.missingField (pre.length + 1) "assists")) := by
    rw [happ]
    simp only [Nat.zero_add, validateEntries, hcheck pre.length]
  have hmain : validate_stats_file
      (JTop.list (pre ++ JEntry.obj fields :: post)) =
      some (false, [ValidateMsg.missingField (pre.length + 1) "assists"]) := by
    simp only [validate_stats_file, hval]
  refine ⟨hmain, ?_, ?_⟩
  · intro xs msgs hmem hcon
    cases hv : validateEntries 0 xs with
    | none =>
      simp only [validate_stats_file, hv] at hcon
      exact Option.noConfusion hcon
    | some o =>
      cases o with
      | some m =>
        simp only [validate_stats_file, hv] at hcon
        have := Prod.mk.inj (Option.some_inj.mp hcon)
        exact Bool.false_ne_true this.1
      | none =>
        obtain ⟨k, hk⟩ :=
          validateEntries_ok xs 0 hv (JEntry.obj fields) hmem
        rw [hcheck k] at hk
        exact CheckResult.noConfusion hk
  · intro cur ts
    simp only [importCommand, hmain]

/-- Closed witness for `validate_missing_assists_spec`: a passing first
entry followed by an object lacking `assists` is reported at position 2,
field `assists`, and the import command is blocked. -/
theorem validate_missing_assists_spec_witness :
    validate_stats_file (JTop.list
      [JEntry.obj [("name", JVal.str "p"), ("minutes", JVal.num 1),
         ("goals", JVal.num 0), ("assists", JVal.num 0)],
       JEntry.obj [("name", JVal.str "x"), ("minutes", JVal.num 1),
         ("goals", JVal.num 1)]]) =
      some (false, [ValidateMsg.missingField 2 "assists"]) ∧
    importCommand (JTop.list
      [JEntry.obj [("name", JVal.str "p"), ("minutes", JVal.num 1),
         ("goals", JVal.num 0), ("assists", JVal.num 0)],
       JEntry.obj [("name", JVal.str "x"), ("minutes", JVal.num 1),
         ("goals", JVal.num 1)]]) [] "ts" = CommandResult.blocked := by
  have h := validate_missing_assists_spec
    [JEntry.obj [("name", JVal.str "p"), ("minutes", JVal.num 1),
       ("goals", JVal.num 0), ("assists", JVal.num 0)]] []
    [("name", JVal.str "x"), ("minutes", JVal.num 1), ("goals", JVal.num 1)]
    (JVal.str "x") (JVal.num 1) (JVal.num 1)
    (by decide) (by decide) (by decide) (by decide) (by decide)
  exact ⟨h.1, h.2.2 [] "ts"⟩

/-- C8 (counterexample to the claim as stated).  An array whose first
entry is not an object and whose second entry is an object lacking
`assists` fails validation, but the single diagnostic names the first
entry's violation (position 1, not an object), not the assists entry's
position and field. -/
theorem validate_missing_assists_cx :
    recGet [("name", JVal.str "x"), ("minutes", JVal.num 1),
      ("goals", JVal.num 1)] "assists" = none ∧
    validate_stats_file (JTop.list
      [JEntry.atom (JVal.num 5),
       JEntry.obj [("name", JVal.str "x"), ("minutes", JVal.num 1),
         ("goals", JVal.num 1)]]) =
      some (false, [ValidateMsg.entryNotObject 1]) ∧
    validate_stats_file (JTop.list
      [JEntry.atom (JVal.num 5),
       JEntry.obj [("name", JVal.str "x"), ("minutes", JVal.num 1),
         ("goals", JVal.num 1)]]) ≠
      some (false, [ValidateMsg.missingField 2 "assists"]) := by
  decide

/-- C9 (amended).  Whenever `validate_stats_file` returns (does not raise),
it prints exactly one message: on failure, only the first violation; on
success it is not silent — it prints the single
"File format is valid (N players)" line. -/
theorem validate_prints_single_message (d : JTop) (b : Bool)
    (msgs : List ValidateMsg)
    (h : validate_stats_file d = some (b, msgs)) :
    (∃ m, msgs = [m]) ∧
    (b = true → ∃ n, msgs = [ValidateMsg.validOk n]) := by
  cases d with
  | nonList =>
    obtain ⟨hb, hm⟩ := Prod.mk.inj (Option.some_inj.mp h)
    subst hm
    exact ⟨⟨ValidateMsg.notAList, rfl⟩,
      fun ht => absurd (hb.trans ht) Bool.false_ne_true⟩
  | list xs =>
    cases hv : validateEntries 0 xs with
    | none =>
      simp only [validate_stats_file, hv] at h
      exact Option.noConfusion h
    | some o =>
      cases o with
      | some m =>
        simp only [validate_stats_file, hv] at h
        obtain ⟨hb, hm⟩ := Prod.mk.inj (Option.some_inj.mp h)
        subst hm
        exact ⟨⟨m, rfl⟩, fun ht => absurd (hb.trans ht) Bool.false_ne_true⟩
      | none =>
        simp only [validate_stats_file, hv] at h
        obtain ⟨hb, hm⟩ := Prod.mk.inj (Option.some_inj.mp h)
        subst hm
        exact ⟨⟨ValidateMsg.validOk xs.length, rfl⟩,
          fun _ => ⟨xs.length, rfl⟩⟩

/-- Closed witness for `validate_prints_single_message`, at a non-list
input. -/
theorem validate_prints_single_message_witness :
    (∃ m, [ValidateMsg.notAList] = [m]) ∧
    (false = true →
      ∃ n, [ValidateMsg.notAList] = [ValidateMsg.validOk n]) :=
  validate_prints_single_message JTop.nonList false [ValidateMsg.notAList] rfl

/-- C9 (counterexample to the claim as stated).  A file that passes the
schema check does not exit silently: the code prints
"File format is valid (1 players)" (the `validOk` message), so the printed
output on success is not empty. -/
theorem validate_success_not_silent_cx :
    validate_stats_file (JTop.list [JEntry.obj
      [("name", JVal.str "A"), ("minutes", JVal.num 1),
       ("goals", JVal.num 0), ("assists", JVal.num 0)]]) =
      some (true, [ValidateMsg.validOk 1]) ∧
    [ValidateMsg.validOk 1] ≠ ([] : List ValidateMsg) := by
  decide

/-- C10.  On an array entry that has every required field but whose `name`
value is not a string, `validate_stats_file` raises an uncaught
`AttributeError` at `player['name'].strip()` (modelled as `none`) instead
of printing a diagnostic and returning `False`; the `import` command then
crashes rather than being cleanly blocked.  Validation is not total over
arrays of objects. -/
theorem validate_nonstring_name_crashes :
    validate_stats_file (JTop.list [JEntry.obj
      [("name", JVal.num 5), ("minutes", JVal.num 1),
       ("goals", JVal.num 1), ("assists", JVal.num 2)]]) = none ∧
    importCommand (JTop.list [JEntry.obj
      [("name", JVal.num 5), ("minutes", JVal.num 1),
       ("goals", JVal.num 1), ("assists", JVal.num 2)]]) [] "ts" =
      CommandResult.crashed := by
  decide

end DraftAnalysis
